import Mathlib

/-!
# Verification of the arena allocator (src/arena.c, src/arena.h)

Shallow embedding of a region-based bump allocator.  The C code manages an
`Arena` owning a singly linked chain of `Region`s; each region is a header
(`next` pointer, `tail` cursor, `capacity`) followed by a flexible byte
payload `data[]`, all obtained from `mmap` in page-sized blocks.

Modelling decisions:

* `size_t` values and addresses are modelled as `Nat`.  The C arithmetic is
  64-bit; the `Nat` model is exact for every execution in which no `size_t`
  addition overflows, which holds for all allocations the OS can back.
* Structure layout constants are those of the LP64 x86-64 Linux platform the
  code targets (`nullptr`, `mmap`, `sysconf`): pointers and `size_t` are
  8 bytes, `alignof(max_align_t)` is 16.  Hence
  `REGION_HEADER_SIZE = offsetof(Region, data) = 24` and
  `ARENA_HEADER_SIZE = offsetof(Arena, first) + REGION_HEADER_SIZE
                     = 16 + 24 = 40`.
* `mmap` is modelled as a bump of the address space: each request returns a
  fresh page-aligned block at the current watermark (`nextAddr`) and advances
  it.  Distinct requests therefore never alias, matching `MAP_PRIVATE`
  anonymous mappings.
* The chain of regions is carried as a `List Region` in creation order
  (the order in which the C code links them), with each node remembering its
  own address (the value of the C `Region*` pointer) and the address stored
  in its `next` field, so that claims about the pointer structure (acyclicity,
  the position of `last`) remain genuine statements about the links.
-/

/-- `offsetof(Region, data)` on LP64: three 8-byte fields precede `data`. -/
def REGION_HEADER_SIZE : Nat := 24

/-- `offsetof(Arena, first)` on LP64: `Region* last` and
`size_t new_region_capacity` precede the embedded first region. -/
def ARENA_FIRST_OFFSET : Nat := 16

/-- `ARENA_HEADER_SIZE = offsetof(Arena, first) + REGION_HEADER_SIZE`. -/
def ARENA_HEADER_SIZE : Nat := ARENA_FIRST_OFFSET + REGION_HEADER_SIZE

/-- `alignof(max_align_t)` on x86-64 Linux. -/
def MAX_ALIGN : Nat := 16

/-- The C macro `is_power_of_two(v)`: `v && !((v & (v - 1)))`. -/
def is_power_of_two (v : Nat) : Bool := v != 0 && (v &&& (v - 1)) == 0

/-- `align` from src/arena.c: align `n` to `alignment` boundary, which must be
a power of two or zero.  The C body is `(n + a) & ~a` with `a = alignment - 1`;
since on a machine word `x & ~a = x - (x & a)` (the set bits of `a` are
exactly the cleared bits of `~a`), we render the 64-bit complement trick as
that subtraction, which is exact whenever `n + a` does not overflow. -/
def align (n alignment : Nat) : Nat :=
  if 0 < alignment then
    (n + (alignment - 1)) - ((n + (alignment - 1)) &&& (alignment - 1))
  else
    n

/-- `align_to_page` from src/arena.c: align `n` to the page boundary reported
by `sysconf(_SC_PAGE_SIZE)`, here an explicit parameter. -/
def align_to_page (page_size n : Nat) : Nat :=
  align n page_size

/-- Rounding up to a multiple, as the spec phrases the algorithm
(`round_up(tail, alignment)`). -/
def round_up (n a : Nat) : Nat :=
  a * ((n + a - 1) / a)

/-! ## Data model -/

/-- One `Region` node: `addr` is the value of the C `Region*` pointer to the
header (the mmap block start for chained regions, `arena + 16` for the
embedded first region); `next`, `tail`, `capacity` are the header fields,
with `next` holding the address of the following region's header or `none`
for `nullptr`.  The payload `data` occupies addresses
`[addr + REGION_HEADER_SIZE, addr + REGION_HEADER_SIZE + capacity)`. -/
structure Region where
  addr : Nat
  next : Option Nat
  tail : Nat
  capacity : Nat
  deriving Repr, DecidableEq

/-- The payload address `&region->data[0]`. -/
def Region.dataAddr (r : Region) : Nat := r.addr + REGION_HEADER_SIZE

/-- The `Arena` header plus the chain of regions it owns, in creation order
(the embedded first region, then each region linked after it).  `last` is the
address held in the C `last` pointer. -/
structure Arena where
  last : Nat
  new_region_capacity : Nat
  chain : List Region
  deriving Repr, DecidableEq

/-- An arena together with the modelled OS: `mmap` hands out fresh
page-aligned blocks from the watermark `nextAddr`. -/
structure Sys where
  arena : Arena
  nextAddr : Nat
  deriving Repr, DecidableEq

/-! ## Region operations -/

/-- `region_alloc` from src/arena.c.  Returns the pointer `&region->data[start]`
(or `none` for `nullptr`) together with the region's state after the call. -/
def region_alloc (region : Region) (size alignment : Nat) : Option Nat × Region :=
  let start := align region.tail alignment
  if start ≥ region.capacity then
    (none, region)
  else
    let bytes_available := region.capacity - start
    if size > bytes_available then
      (none, region)
    else
      (some (region.dataAddr + start), { region with tail := start + size })

/-- `create_region` from src/arena.c, placed at address `addr` (the fresh mmap
block).  The whole block is `align_to_page (capacity + REGION_HEADER_SIZE)`
bytes; the region's capacity is what remains after the header. -/
def create_region (page_size addr capacity : Nat) : Region :=
  let mem_size := align_to_page page_size (capacity + REGION_HEADER_SIZE)
  { addr := addr, next := none, tail := 0, capacity := mem_size - REGION_HEADER_SIZE }

/-- Bytes consumed from the OS by `create_region` with this requested
capacity. -/
def region_mem_size (page_size capacity : Nat) : Nat :=
  align_to_page page_size (capacity + REGION_HEADER_SIZE)

/-! ## Arena operations -/

/-- Look up the region whose header lives at address `a`
(dereferencing a `Region*`). -/
def lookupRegion (chain : List Region) (a : Nat) : Option Region :=
  chain.find? (fun r => r.addr == a)

/-- Store `some target` into the `next` field of the region at address `a`
(the assignment `arena->last->next = new_region`). -/
def setNext (chain : List Region) (a target : Nat) : List Region :=
  chain.map (fun r => if r.addr = a then { r with next := some target } else r)

/-- Write back the mutated region at address `a`. -/
def updateRegion (chain : List Region) (a : Nat) (r' : Region) : List Region :=
  chain.map (fun r => if r.addr = a then r' else r)

/-- `new_region_alloc` from src/arena.c: create a new region sized
`max(size, arena->new_region_capacity)` at the next fresh OS address, link it
after `last`, make it the new `last`, and allocate from it. -/
def new_region_alloc (page_size : Nat) (s : Sys) (size alignment : Nat) :
    Option Nat × Sys :=
  let cap := max size s.arena.new_region_capacity
  let new_region := create_region page_size s.nextAddr cap
  let res := region_alloc new_region size alignment
  (res.1,
   { arena :=
       { last := s.nextAddr,
         new_region_capacity := s.arena.new_region_capacity,
         chain := setNext s.arena.chain s.arena.last s.nextAddr ++ [res.2] },
     nextAddr := s.nextAddr + region_mem_size page_size cap })

/-- `create_arena` from src/arena.c, with the arena block placed at `base`.
The block is `align_to_page (capacity + ARENA_HEADER_SIZE)` bytes; the
embedded first region starts at `base + ARENA_FIRST_OFFSET` and becomes
`last`; `new_region_capacity` is the requested capacity itself. -/
def create_arena (page_size capacity base : Nat) : Arena :=
  let mem_size := align_to_page page_size (capacity + ARENA_HEADER_SIZE)
  { last := base + ARENA_FIRST_OFFSET,
    new_region_capacity := capacity,
    chain := [{ addr := base + ARENA_FIRST_OFFSET, next := none, tail := 0,
                capacity := mem_size - ARENA_HEADER_SIZE }] }

/-- `set_region_capacity` from src/arena.c. -/
def set_region_capacity (arena : Arena) (capacity : Nat) : Arena :=
  { arena with new_region_capacity := capacity }

/-- `_arena_alloc` from src/arena.c: bump-allocate from `last`, growing the
chain when `last` has no room.  (The `none` branch of the lookup is
unreachable: in every state produced by `create_arena` and these operations,
`last` is the address of a region in the chain.) -/
def _arena_alloc (page_size : Nat) (s : Sys) (size alignment : Nat) :
    Option Nat × Sys :=
  match lookupRegion s.arena.chain s.arena.last with
  | none => (none, s)
  | some r =>
    match region_alloc r size alignment with
    | (some ptr, r') =>
        (some ptr,
         { s with arena :=
            { s.arena with chain := updateRegion s.arena.chain s.arena.last r' } })
    | (none, _) => new_region_alloc page_size s size alignment

/-- The loop of `_arena_fit`: try each region in chain order, returning the
first success and the chain with that region updated. -/
def fit_scan (size alignment : Nat) : List Region → Option (Nat × List Region)
  | [] => none
  | r :: rest =>
    match region_alloc r size alignment with
    | (some ptr, r') => some (ptr, r' :: rest)
    | (none, _) =>
      match fit_scan size alignment rest with
      | some (ptr, rest') => some (ptr, r :: rest')
      | none => none

/-- `_arena_fit` from src/arena.c: first-fit scan of the whole chain, growing
the chain only when no region has room. -/
def _arena_fit (page_size : Nat) (s : Sys) (size alignment : Nat) :
    Option Nat × Sys :=
  match fit_scan size alignment s.arena.chain with
  | some (ptr, chain') =>
      (some ptr, { s with arena := { s.arena with chain := chain' } })
  | none => new_region_alloc page_size s size alignment

/-! ## Execution of call sequences -/

/-- Public calls that mutate one arena. -/
inductive Op where
  | alloc (size alignment : Nat)
  | fit (size alignment : Nat)
  | set_capacity (capacity : Nat)
  deriving Repr, DecidableEq

/-- The preconditions asserted by `region_alloc`: nonzero size and a
power-of-two alignment not exceeding `alignof(max_align_t)`.
`set_region_capacity` accepts anything. -/
def validOp : Op → Prop
  | .alloc size alignment =>
      0 < size ∧ is_power_of_two alignment = true ∧ alignment ≤ MAX_ALIGN
  | .fit size alignment =>
      0 < size ∧ is_power_of_two alignment = true ∧ alignment ≤ MAX_ALIGN
  | .set_capacity _ => True

instance : DecidablePred validOp := by
  intro op
  cases op <;> simp only [validOp] <;> infer_instance

/-- One public call. -/
def execOp (page_size : Nat) (s : Sys) : Op → Sys
  | .alloc size alignment => (_arena_alloc page_size s size alignment).2
  | .fit size alignment => (_arena_fit page_size s size alignment).2
  | .set_capacity capacity =>
      { s with arena := set_region_capacity s.arena capacity }

/-- A sequence of public calls. -/
def execOps (page_size : Nat) (s : Sys) : List Op → Sys
  | [] => s
  | op :: ops => execOps page_size (execOp page_size s op) ops

/-- The state right after `create_arena`, with the arena block at address 0
(page-aligned, as every mmap result is). -/
def initSys (page_size capacity : Nat) : Sys :=
  { arena := create_arena page_size capacity 0,
    nextAddr := align_to_page page_size (capacity + ARENA_HEADER_SIZE) }

/-- The spec's description of `Region.allocate`, word for word: compute
`start = round_up(tail, alignment)`; if `start >= capacity`, fail; otherwise
if `size > capacity - start`, fail; otherwise set `tail = start + size` and
return a pointer to `data[start]`. -/
def region_alloc_spec (region : Region) (size alignment : Nat) :
    Option Nat × Region :=
  let start := round_up region.tail alignment
  if start ≥ region.capacity then
    (none, region)
  else if size > region.capacity - start then
    (none, region)
  else
    (some (region.dataAddr + start), { region with tail := start + size })

/-- Follow the `next` pointers starting from the region at address `a`,
recording the visited header addresses, for at most `fuel` steps.  This walks
the pointer graph exactly as `delete_arena` and `arena_print` traverse it. -/
def walk (chain : List Region) : Nat → Nat → List Nat
  | _, 0 => []
  | a, fuel + 1 =>
    match lookupRegion chain a with
    | none => [a]
    | some r =>
      match r.next with
      | none => [a]
      | some b => a :: walk chain b fuel

/-! ## Basic facts about `region_alloc` -/

/-! ## Chain invariants -/

/-- Every region's cursor is within its capacity. -/
def tailsOk (chain : List Region) : Prop := ∀ r ∈ chain, r.tail ≤ r.capacity

/-- The `next` fields realize the chain order: each region's `next` holds the
address of the following region, and the final region's `next` is `nullptr`. -/
def chainLinked : List Region → Prop
  | [] => True
  | [r] => r.next = none
  | r :: r2 :: rest => r.next = some r2.addr ∧ chainLinked (r2 :: rest)

/-- Two chains with identical addresses and links, elementwise. -/
def sameShape (c1 c2 : List Region) : Prop :=
  List.Forall₂ (fun a b => a.addr = b.addr ∧ a.next = b.next) c1 c2

/-! ## The well-formedness invariant -/

/-- Invariant of every state reachable from `create_arena` through the public
calls: the chain is nonempty, its `next` links realize the list order, region
header addresses strictly increase along the chain (fresh mmap blocks), every
region lives below the OS watermark, `last` holds the address of the final
region, and every cursor is within bounds. -/
def wf (s : Sys) : Prop :=
  s.arena.chain ≠ [] ∧
  chainLinked s.arena.chain ∧
  List.Chain' (· < ·) (s.arena.chain.map Region.addr) ∧
  (∀ r ∈ s.arena.chain, r.addr < s.nextAddr) ∧
  (s.arena.chain.map Region.addr).getLast? = some s.arena.last ∧
  tailsOk s.arena.chain

/-! ## Theorems -/

theorem align_two_pow (n k : Nat) :
    align n (2 ^ k) = 2 ^ k * ((n + (2 ^ k - 1)) / 2 ^ k) := by
  have hpos : 0 < 2 ^ k := Nat.pos_pow_of_pos k (by decide)
  unfold align
  rw [if_pos hpos]
  have hand : (n + (2 ^ k - 1)) &&& (2 ^ k - 1) = (n + (2 ^ k - 1)) % 2 ^ k :=
    Nat.and_pow_two_sub_one_eq_mod _ k
  have hdm := Nat.div_add_mod (n + (2 ^ k - 1)) (2 ^ k)
  simp only [hand]
  omega

theorem align_eq_round_up (n k : Nat) : align n (2 ^ k) = round_up n (2 ^ k) := by
  have hpos : 0 < 2 ^ k := Nat.pos_pow_of_pos k (by decide)
  have h : n + (2 ^ k - 1) = n + 2 ^ k - 1 := by omega
  rw [align_two_pow, round_up, h]

theorem le_align (n alignment : Nat) : n ≤ align n alignment := by
  unfold align
  split
  · have h := Nat.and_le_right (n := n + (alignment - 1)) (m := alignment - 1)
    omega
  · exact Nat.le_refl n

theorem align_lt_add (n alignment : Nat) (h : 0 < alignment) :
    align n alignment < n + alignment := by
  unfold align
  rw [if_pos h]
  have h2 := Nat.zero_le ((n + (alignment - 1)) &&& (alignment - 1))
  omega

theorem dvd_align (n k : Nat) : 2 ^ k ∣ align n (2 ^ k) := by
  rw [align_two_pow]
  exact Dvd.intro _ rfl

theorem align_zero (alignment : Nat) : align 0 alignment = 0 := by
  unfold align
  split
  · simp [Nat.and_self]
  · rfl

/-- Powers of two not exceeding `MAX_ALIGN = 16`, as enforced by the assertion
in `region_alloc`. -/
theorem pow_two_le_max_align (a : Nat)
    (hpow : is_power_of_two a = true) (hle : a ≤ MAX_ALIGN) :
    a = 2 ^ 0 ∨ a = 2 ^ 1 ∨ a = 2 ^ 2 ∨ a = 2 ^ 3 ∨ a = 2 ^ 4 := by
  have h : a < 17 := by
    have : MAX_ALIGN = 16 := rfl
    omega
  revert hpow
  interval_cases a <;> decide

theorem region_alloc_eq (r : Region) (size alignment : Nat) :
    region_alloc r size alignment =
      if align r.tail alignment ≥ r.capacity then (none, r)
      else if size > r.capacity - align r.tail alignment then (none, r)
      else (some (r.dataAddr + align r.tail alignment),
            { r with tail := align r.tail alignment + size }) := rfl

theorem region_alloc_frame (r : Region) (size alignment : Nat) :
    (region_alloc r size alignment).2.addr = r.addr ∧
    (region_alloc r size alignment).2.next = r.next ∧
    (region_alloc r size alignment).2.capacity = r.capacity := by
  rw [region_alloc_eq]
  split
  · exact ⟨rfl, rfl, rfl⟩
  · split
    · exact ⟨rfl, rfl, rfl⟩
    · exact ⟨rfl, rfl, rfl⟩

theorem region_alloc_tail_le (r : Region) (size alignment : Nat)
    (h : r.tail ≤ r.capacity) :
    (region_alloc r size alignment).2.tail ≤
      (region_alloc r size alignment).2.capacity := by
  rw [region_alloc_eq]
  split
  · exact h
  · split
    · exact h
    · rename_i h1 h2
      show align r.tail alignment + size ≤ r.capacity
      omega

theorem region_alloc_some (r : Region) (size alignment p : Nat) (r' : Region)
    (h : region_alloc r size alignment = (some p, r')) :
    align r.tail alignment < r.capacity ∧
    size ≤ r.capacity - align r.tail alignment ∧
    p = r.dataAddr + align r.tail alignment ∧
    r' = { r with tail := align r.tail alignment + size } := by
  rw [region_alloc_eq] at h
  split at h
  · exact absurd (congrArg Prod.fst h) (by simp)
  · split at h
    · exact absurd (congrArg Prod.fst h) (by simp)
    · rename_i h1 h2
      have hp := congrArg Prod.fst h
      have hr := congrArg Prod.snd h
      simp only [] at hp hr
      exact ⟨by omega, by omega, (Option.some.inj hp).symm, hr.symm⟩

theorem region_alloc_fresh (r : Region) (size alignment : Nat)
    (htail : r.tail = 0) (hsize : 0 < size) (hcap : size ≤ r.capacity) :
    region_alloc r size alignment = (some r.dataAddr, { r with tail := size }) := by
  rw [region_alloc_eq, htail, align_zero]
  rw [if_neg (by omega), if_neg (by omega)]
  simp

theorem sameShape_map_addr {c1 c2 : List Region} (h : sameShape c1 c2) :
    c1.map Region.addr = c2.map Region.addr := by
  induction h with
  | nil => rfl
  | cons hr _ ih => simp [hr.1, ih]

theorem chainLinked_of_sameShape {c1 c2 : List Region}
    (h : sameShape c1 c2) : chainLinked c1 → chainLinked c2 := by
  induction h with
  | nil => exact fun h => h
  | @cons a b l1 l2 hr htail ih =>
    intro hl
    cases htail with
    | nil =>
      show b.next = none
      rw [← hr.2]
      exact hl
    | @cons a2 b2 l1' l2' hr2 htail2 =>
      obtain ⟨h1, h2⟩ := hl
      exact ⟨by rw [← hr.2, h1, hr2.1], ih h2⟩

theorem updateRegion_sameShape (chain : List Region) (a : Nat) (r' : Region)
    (h : ∀ x ∈ chain, x.addr = a → r'.addr = x.addr ∧ r'.next = x.next) :
    sameShape chain (updateRegion chain a r') := by
  unfold sameShape updateRegion
  rw [List.forall₂_map_right_iff, List.forall₂_same]
  intro x hx
  by_cases hxa : x.addr = a
  · rw [if_pos hxa]
    exact ⟨((h x hx hxa).1).symm, ((h x hx hxa).2).symm⟩
  · rw [if_neg hxa]
    exact ⟨rfl, rfl⟩

theorem tailsOk_updateRegion {chain : List Region} {a : Nat} {r' : Region}
    (h : tailsOk chain) (hr' : r'.tail ≤ r'.capacity) :
    tailsOk (updateRegion chain a r') := by
  intro r hr
  obtain ⟨x, hx, rfl⟩ := List.mem_map.1 hr
  by_cases hxa : x.addr = a
  · rw [if_pos hxa]; exact hr'
  · rw [if_neg hxa]; exact h x hx

theorem setNext_map_addr (chain : List Region) (a t : Nat) :
    (setNext chain a t).map Region.addr = chain.map Region.addr := by
  unfold setNext
  rw [List.map_map]
  apply List.map_congr_left
  intro x _
  by_cases hxa : x.addr = a
  · simp [hxa]
  · simp [hxa]

theorem tailsOk_setNext {chain : List Region} {a t : Nat} (h : tailsOk chain) :
    tailsOk (setNext chain a t) := by
  intro r hr
  obtain ⟨x, hx, rfl⟩ := List.mem_map.1 hr
  by_cases hxa : x.addr = a
  · simp only [if_pos hxa]
    exact h x hx
  · rw [if_neg hxa]
    exact h x hx

theorem tailsOk_append {c1 c2 : List Region} (h1 : tailsOk c1) (h2 : tailsOk c2) :
    tailsOk (c1 ++ c2) := by
  intro r hr
  rcases List.mem_append.1 hr with h | h
  · exact h1 r h
  · exact h2 r h

/-- Appending a fresh terminal region after rewiring the old final region's
`next` keeps the chain linked. -/
theorem chainLinked_grow (a naddr : Nat) (rn : Region)
    (hrn_addr : rn.addr = naddr) (hrn_next : rn.next = none) :
    ∀ c : List Region, chainLinked c → (c.map Region.addr).Nodup →
      (c.map Region.addr).getLast? = some a →
      chainLinked (setNext c a naddr ++ [rn])
  | [] => by
    intro _ _ hlast
    simp at hlast
  | [x] => by
    intro _ _ hlast
    simp only [List.map_cons, List.map_nil, List.getLast?_singleton,
      Option.some.injEq] at hlast
    show chainLinked ((if x.addr = a then { x with next := some naddr } else x) :: [rn])
    rw [if_pos hlast]
    exact ⟨by rw [hrn_addr], hrn_next⟩
  | x :: y :: rest => by
    intro hL hnd hlast
    obtain ⟨hx_next, hL'⟩ := hL
    have htail_last : ((y :: rest).map Region.addr).getLast? = some a := by
      simpa using hlast
    have ha_mem : a ∈ (y :: rest).map Region.addr :=
      List.mem_of_mem_getLast? htail_last
    rw [List.map_cons] at hnd
    have hx_ne : x.addr ≠ a := by
      intro hxa
      exact (List.nodup_cons.1 hnd).1 (hxa ▸ ha_mem)
    have hnd' : ((y :: rest).map Region.addr).Nodup :=
      (List.nodup_cons.1 hnd).2
    have ih := chainLinked_grow a naddr rn hrn_addr hrn_next (y :: rest) hL' hnd' htail_last
    show chainLinked ((if x.addr = a then { x with next := some naddr } else x) ::
      ((if y.addr = a then { y with next := some naddr } else y) ::
        (setNext rest a naddr ++ [rn])))
    rw [if_neg hx_ne]
    constructor
    · by_cases hya : y.addr = a
      · rw [if_pos hya]
        exact hx_next
      · rw [if_neg hya]
        exact hx_next
    · exact ih

theorem sameShape_refl (c : List Region) : sameShape c c := by
  unfold sameShape
  rw [List.forall₂_same]
  exact fun x _ => ⟨rfl, rfl⟩

/-- A successful first-fit scan only bumps one region's cursor: addresses and
links are untouched. -/
theorem fit_scan_sameShape (size alignment : Nat) :
    ∀ (chain : List Region) (p : Nat) (chain' : List Region),
      fit_scan size alignment chain = some (p, chain') →
      sameShape chain chain' ∧ (tailsOk chain → tailsOk chain')
  | [], p, chain' => by
    intro h
    simp [fit_scan] at h
  | r :: rest, p, chain' => by
    intro h
    rcases hra : region_alloc r size alignment with ⟨o, r2⟩
    cases o with
    | some ptr =>
      rw [fit_scan, hra] at h
      obtain ⟨hp, hc⟩ := Prod.mk.injEq .. ▸ Option.some.inj h
      subst hc
      have hframe := region_alloc_frame r size alignment
      rw [hra] at hframe
      refine ⟨List.Forall₂.cons ⟨hframe.1.symm, hframe.2.1.symm⟩ (sameShape_refl rest), ?_⟩
      intro htails x hx
      rcases List.mem_cons.1 hx with rfl | hx
      · have := region_alloc_tail_le r size alignment (htails r (by simp))
        rw [hra] at this
        simpa using this
      · exact htails x (by simp [hx])
    | none =>
      rw [fit_scan, hra] at h
      rcases hrec : fit_scan size alignment rest with _ | ⟨q, rest'⟩
      · rw [hrec] at h
        simp at h
      · rw [hrec] at h
        obtain ⟨hp, hc⟩ := Prod.mk.injEq .. ▸ Option.some.inj h
        subst hc
        have ih := fit_scan_sameShape size alignment rest q rest' hrec
        refine ⟨List.Forall₂.cons ⟨rfl, rfl⟩ ih.1, ?_⟩
        intro htails x hx
        rcases List.mem_cons.1 hx with rfl | hx
        · exact htails x (by simp)
        · exact ih.2 (fun y hy => htails y (by simp [hy])) x hx

theorem nodup_of_chain_lt {l : List Nat} (h : List.Chain' (· < ·) l) : l.Nodup := by
  have hp : List.Pairwise (· < ·) l := List.chain'_iff_pairwise.1 h
  exact hp.imp Nat.ne_of_lt

theorem wf_init (page_size capacity : Nat) : wf (initSys page_size capacity) := by
  have hge : capacity + ARENA_HEADER_SIZE ≤
      align_to_page page_size (capacity + ARENA_HEADER_SIZE) := le_align _ _
  have hAH : ARENA_HEADER_SIZE = 40 := rfl
  have hAF : ARENA_FIRST_OFFSET = 16 := rfl
  refine ⟨by simp [initSys, create_arena], rfl, ?_, ?_, ?_, ?_⟩
  · simp [initSys, create_arena, List.chain'_singleton]
  · intro r hr
    simp only [initSys, create_arena, List.mem_singleton] at hr
    subst hr
    simp only [initSys]
    omega
  · simp [initSys, create_arena]
  · intro r hr
    simp only [initSys, create_arena, List.mem_singleton] at hr
    subst hr
    simp

theorem region_mem_size_ge (page_size capacity : Nat) :
    capacity + REGION_HEADER_SIZE ≤ region_mem_size page_size capacity :=
  le_align _ _

theorem new_region_alloc_snd (page_size : Nat) (s : Sys) (size alignment : Nat) :
    (new_region_alloc page_size s size alignment).2 =
      { arena :=
          { last := s.nextAddr,
            new_region_capacity := s.arena.new_region_capacity,
            chain := setNext s.arena.chain s.arena.last s.nextAddr ++
              [(region_alloc (create_region page_size s.nextAddr
                  (max size s.arena.new_region_capacity)) size alignment).2] },
        nextAddr := s.nextAddr + region_mem_size page_size
          (max size s.arena.new_region_capacity) } := rfl

theorem new_region_alloc_fst (page_size : Nat) (s : Sys) (size alignment : Nat) :
    (new_region_alloc page_size s size alignment).1 =
      (region_alloc (create_region page_size s.nextAddr
        (max size s.arena.new_region_capacity)) size alignment).1 := rfl

theorem lookupRegion_eq_some {chain : List Region} {a : Nat} {r : Region}
    (h : lookupRegion chain a = some r) : r ∈ chain ∧ r.addr = a := by
  refine ⟨List.mem_of_find?_eq_some h, ?_⟩
  have := List.find?_some h
  simpa using this

theorem lookupRegion_isSome_of_mem {chain : List Region} {a : Nat}
    (h : a ∈ chain.map Region.addr) : (lookupRegion chain a).isSome := by
  rw [lookupRegion, List.find?_isSome]
  obtain ⟨r, hr, rfl⟩ := List.mem_map.1 h
  exact ⟨r, hr, by simp⟩

theorem bound_of_map_addr_eq {c1 c2 : List Region} {n : Nat}
    (hmap : c1.map Region.addr = c2.map Region.addr)
    (h : ∀ r ∈ c1, r.addr < n) : ∀ r ∈ c2, r.addr < n := by
  intro r hr
  have hmem : r.addr ∈ c2.map Region.addr := List.mem_map_of_mem _ hr
  rw [← hmap] at hmem
  obtain ⟨y, hy, hya⟩ := List.mem_map.1 hmem
  rw [← hya]
  exact h y hy

/-- Replacing the chain by one of the same shape (same addresses and links)
with in-bounds cursors preserves well-formedness. -/
theorem wf_replace_chain (s : Sys) (chain' : List Region)
    (h : wf s) (hshape : sameShape s.arena.chain chain')
    (htails' : tailsOk chain') :
    wf { s with arena := { s.arena with chain := chain' } } := by
  obtain ⟨hne, hlink, hsorted, hbound, hlast, htails⟩ := h
  have hmap := sameShape_map_addr hshape
  refine ⟨?_, chainLinked_of_sameShape hshape hlink, by rw [← hmap]; exact hsorted,
    bound_of_map_addr_eq hmap hbound, by rw [← hmap]; exact hlast, htails'⟩
  intro h2
  have h2' : chain' = [] := h2
  rw [h2'] at hmap
  exact hne (List.map_eq_nil_iff.1 hmap)

theorem wf_new_region_alloc (page_size : Nat) (s : Sys) (size alignment : Nat)
    (h : wf s) : wf (new_region_alloc page_size s size alignment).2 := by
  obtain ⟨hne, hlink, hsorted, hbound, hlast, htails⟩ := h
  have hnodup := nodup_of_chain_lt hsorted
  have hmem_last := List.mem_of_mem_getLast? hlast
  rw [new_region_alloc_snd]
  have hframe := region_alloc_frame (create_region page_size s.nextAddr
    (max size s.arena.new_region_capacity)) size alignment
  have htail_new := region_alloc_tail_le (create_region page_size s.nextAddr
    (max size s.arena.new_region_capacity)) size alignment (by simp [create_region])
  have hmm := region_mem_size_ge page_size (max size s.arena.new_region_capacity)
  have hRH : REGION_HEADER_SIZE = 24 := rfl
  have haddr_new : (region_alloc (create_region page_size s.nextAddr
      (max size s.arena.new_region_capacity)) size alignment).2.addr = s.nextAddr := by
    rw [hframe.1]
    rfl
  have hnext_new : (region_alloc (create_region page_size s.nextAddr
      (max size s.arena.new_region_capacity)) size alignment).2.next = none := by
    rw [hframe.2.1]
    rfl
  refine ⟨by simp, ?_, ?_, ?_, ?_, ?_⟩
  · exact chainLinked_grow s.arena.last s.nextAddr _ haddr_new hnext_new
      s.arena.chain hlink hnodup hlast
  · rw [List.map_append, setNext_map_addr, List.map_singleton, haddr_new]
    refine List.Chain'.append hsorted (List.chain'_singleton _) ?_
    intro x hx y hy
    rw [hlast] at hx
    simp only [Option.mem_def, Option.some.injEq] at hx
    simp only [List.head?_cons, Option.mem_def, Option.some.injEq] at hy
    subst hx
    subst hy
    obtain ⟨z, hz, hza⟩ := List.mem_map.1 hmem_last
    rw [← hza]
    exact hbound z hz
  · intro r hr
    show r.addr < s.nextAddr + region_mem_size page_size
      (max size s.arena.new_region_capacity)
    rcases List.mem_append.1 hr with hr | hr
    · have hmem : r.addr ∈ (setNext s.arena.chain s.arena.last s.nextAddr).map
        Region.addr := List.mem_map_of_mem _ hr
      rw [setNext_map_addr] at hmem
      obtain ⟨y, hy, hya⟩ := List.mem_map.1 hmem
      have := hbound y hy
      omega
    · rw [List.mem_singleton] at hr
      subst hr
      rw [haddr_new]
      omega
  · rw [List.map_append, setNext_map_addr, List.map_singleton, haddr_new]
    exact List.getLast?_concat _
  · refine tailsOk_append (tailsOk_setNext htails) ?_
    intro r hr
    rw [List.mem_singleton] at hr
    subst hr
    exact htail_new

theorem wf_execOp (page_size : Nat) (s : Sys) (op : Op) (h : wf s) :
    wf (execOp page_size s op) := by
  cases op with
  | set_capacity c =>
    obtain ⟨hne, hlink, hsorted, hbound, hlast, htails⟩ := h
    exact ⟨hne, hlink, hsorted, hbound, hlast, htails⟩
  | alloc size alignment =>
    show wf (_arena_alloc page_size s size alignment).2
    cases hlook : lookupRegion s.arena.chain s.arena.last with
    | none =>
      simp only [_arena_alloc, hlook]
      exact h
    | some r =>
      rcases hra : region_alloc r size alignment with ⟨o, r2⟩
      cases o with
      | none =>
        have heq : (_arena_alloc page_size s size alignment).2 =
            (new_region_alloc page_size s size alignment).2 := by
          simp only [_arena_alloc, hlook, hra]
        rw [heq]
        exact wf_new_region_alloc page_size s size alignment h
      | some ptr =>
        have heq : (_arena_alloc page_size s size alignment).2 =
            { s with arena := { s.arena with
                chain := updateRegion s.arena.chain s.arena.last r2 } } := by
          simp only [_arena_alloc, hlook, hra]
        rw [heq]
        obtain ⟨hne, hlink, hsorted, hbound, hlast, htails⟩ := h
        have hmemr := lookupRegion_eq_some hlook
        have hnodup := nodup_of_chain_lt hsorted
        have hframe := region_alloc_frame r size alignment
        rw [hra] at hframe
        have hcond : ∀ x ∈ s.arena.chain, x.addr = s.arena.last →
            r2.addr = x.addr ∧ r2.next = x.next := by
          intro x hx hxa
          have hxr : x = r := List.inj_on_of_nodup_map hnodup hx hmemr.1
            (by rw [hxa, hmemr.2])
          subst hxr
          exact ⟨hframe.1, hframe.2.1⟩
        have htail2 := region_alloc_tail_le r size alignment (htails r hmemr.1)
        rw [hra] at htail2
        exact wf_replace_chain s _ ⟨hne, hlink, hsorted, hbound, hlast, htails⟩
          (updateRegion_sameShape s.arena.chain s.arena.last r2 hcond)
          (tailsOk_updateRegion htails htail2)
  | fit size alignment =>
    show wf (_arena_fit page_size s size alignment).2
    cases hscan : fit_scan size alignment s.arena.chain with
    | none =>
      have heq : (_arena_fit page_size s size alignment).2 =
          (new_region_alloc page_size s size alignment).2 := by
        simp only [_arena_fit, hscan]
      rw [heq]
      exact wf_new_region_alloc page_size s size alignment h
    | some pr =>
      rcases pr with ⟨ptr, chain'⟩
      have heq : (_arena_fit page_size s size alignment).2 =
          { s with arena := { s.arena with chain := chain' } } := by
        simp only [_arena_fit, hscan]
      rw [heq]
      have hsh := fit_scan_sameShape size alignment s.arena.chain ptr chain' hscan
      exact wf_replace_chain s chain' h hsh.1 (hsh.2 h.2.2.2.2.2)

theorem wf_execOps (page_size : Nat) (s : Sys) (ops : List Op) (h : wf s) :
    wf (execOps page_size s ops) := by
  induction ops generalizing s with
  | nil => exact h
  | cons op ops ih => exact ih _ (wf_execOp page_size s op h)


/-- The C predicate `is_power_of_two` holds exactly on powers of two: the
nonzero values `v` with `v & (v - 1) == 0`. -/
theorem pow_of_is_power_of_two : ∀ v : Nat, is_power_of_two v = true → ∃ k, v = 2 ^ k := by
  intro v
  induction v using Nat.strong_induction_on with
  | _ v ih =>
    intro h
    simp only [is_power_of_two, Bool.and_eq_true, bne_iff_ne, ne_eq, beq_iff_eq] at h
    obtain ⟨hv0, hand⟩ := h
    by_cases h1 : v = 1
    · exact ⟨0, by simp [h1]⟩
    · have hv2 : 2 ≤ v := by omega
      have hdiv : v / 2 &&& (v - 1) / 2 = 0 := by
        rw [← Nat.and_div_two, hand]
      rcases Nat.even_or_odd v with he | ho
      · obtain ⟨w, hw⟩ := he
        have hwpos : 0 < w := by omega
        have hv2d : v / 2 = w := by omega
        have hv1d : (v - 1) / 2 = w - 1 := by omega
        rw [hv2d, hv1d] at hdiv
        have hwp : is_power_of_two w = true := by
          simp only [is_power_of_two, Bool.and_eq_true, bne_iff_ne, ne_eq, beq_iff_eq]
          exact ⟨by omega, hdiv⟩
        obtain ⟨k, hk⟩ := ih w (by omega) hwp
        refine ⟨k + 1, ?_⟩
        rw [pow_succ]
        omega
      · exfalso
        obtain ⟨w, hw⟩ := ho
        have h1d : v / 2 = w := by omega
        have h2d : (v - 1) / 2 = w := by omega
        rw [h1d, h2d, Nat.and_self] at hdiv
        omega

/-- Rounding a positive value that already fits within one alignment unit
lands exactly on the unit. -/
theorem align_of_le_two_pow (x k : Nat) (hpos : 0 < x) (hle : x ≤ 2 ^ k) :
    align x (2 ^ k) = 2 ^ k := by
  rw [align_two_pow]
  have hp : 0 < 2 ^ k := Nat.pos_pow_of_pos k (by decide)
  have hq : (x + (2 ^ k - 1)) / 2 ^ k = 1 := by
    apply Nat.div_eq_of_lt_le
    · omega
    · omega
  rw [hq, Nat.mul_one]

/-- First-fit: when region `i` succeeds and every earlier region fails, the
scan returns region `i`'s pointer and only updates region `i`. -/
theorem fit_scan_first (size alignment : Nat) :
    ∀ (chain : List Region) (i : Nat) (hi : i < chain.length) (p : Nat) (r' : Region),
      region_alloc (chain.get ⟨i, hi⟩) size alignment = (some p, r') →
      (∀ j (hj : j < i),
        (region_alloc (chain.get ⟨j, Nat.lt_trans hj hi⟩) size alignment).1 = none) →
      fit_scan size alignment chain = some (p, chain.set i r')
  | [], i, hi, p, r' => by
    intro _ _
    simp at hi
  | r :: rest, 0, hi, p, r' => by
    intro hsucc _
    rw [fit_scan]
    have hr : (r :: rest).get ⟨0, hi⟩ = r := rfl
    rw [hr] at hsucc
    rw [hsucc]
    rfl
  | r :: rest, i + 1, hi, p, r' => by
    intro hsucc hfail
    have h0 := hfail 0 (Nat.succ_pos i)
    rcases hre : region_alloc r size alignment with ⟨o, r2⟩
    have ho : o = none := by
      have : ((r :: rest).get ⟨0, Nat.lt_trans (Nat.succ_pos i) hi⟩) = r := rfl
      rw [this, hre] at h0
      exact h0
    subst ho
    rw [fit_scan, hre]
    have hi' : i < rest.length := Nat.lt_of_succ_lt_succ hi
    have hsucc' : region_alloc (rest.get ⟨i, hi'⟩) size alignment = (some p, r') := by
      have : (r :: rest).get ⟨i + 1, hi⟩ = rest.get ⟨i, hi'⟩ := rfl
      rw [← this]
      exact hsucc
    have hfail' : ∀ j (hj : j < i),
        (region_alloc (rest.get ⟨j, Nat.lt_trans hj hi'⟩) size alignment).1 = none := by
      intro j hj
      have hstep := hfail (j + 1) (Nat.succ_lt_succ hj)
      have : (r :: rest).get ⟨j + 1, Nat.lt_trans (Nat.succ_lt_succ hj) hi⟩ =
          rest.get ⟨j, Nat.lt_trans hj hi'⟩ := rfl
      rw [this] at hstep
      exact hstep
    rw [fit_scan_first size alignment rest i hi' p r' hsucc' hfail']
    rfl

theorem chainLinked_tail {z : Region} {l : List Region}
    (h : chainLinked (z :: l)) : chainLinked l := by
  cases l with
  | nil => trivial
  | cons w l' => exact h.2

/-- In a linked chain, a region's `next` field holds the address of the
element that follows it in the list (or `nullptr` at the end). -/
theorem chainLinked_next :
    ∀ (pre : List Region) (x : Region) (suf : List Region),
      chainLinked (pre ++ x :: suf) →
      x.next = suf.head?.map Region.addr
  | [], x, suf => by
    intro h
    cases suf with
    | nil => exact h
    | cons y suf' => exact h.1
  | z :: pre, x, suf => by
    intro h
    exact chainLinked_next pre x suf (chainLinked_tail h)

theorem lookupRegion_of_nodup :
    ∀ (pre suf : List Region) (x : Region),
      (((pre ++ x :: suf).map Region.addr)).Nodup →
      lookupRegion (pre ++ x :: suf) x.addr = some x
  | [], suf, x, h => by
    simp [lookupRegion, List.find?]
  | y :: pre, suf, x, h => by
    rw [List.cons_append, List.map_cons] at h
    have hx_mem : x.addr ∈ ((pre ++ x :: suf).map Region.addr) := by
      apply List.mem_map_of_mem
      simp
    have hy_ne : ¬ (y.addr == x.addr) = true := by
      have := (List.nodup_cons.1 h).1
      simp only [beq_iff_eq]
      intro he
      exact this (he ▸ hx_mem)
    rw [List.cons_append, lookupRegion, List.find?_cons_of_neg]
    · exact lookupRegion_of_nodup pre suf x (List.nodup_cons.1 h).2
    · exact hy_ne

theorem walk_step_none {chain : List Region} {a : Nat} {r : Region} (fuel : Nat)
    (hl : lookupRegion chain a = some r) (hn : r.next = none) :
    walk chain a (fuel + 1) = [a] := by
  rw [walk, hl]
  show (match r.next with
        | none => [a]
        | some b => a :: walk chain b fuel) = [a]
  rw [hn]

theorem walk_step_some {chain : List Region} {a b : Nat} {r : Region} (fuel : Nat)
    (hl : lookupRegion chain a = some r) (hn : r.next = some b) :
    walk chain a (fuel + 1) = a :: walk chain b fuel := by
  rw [walk, hl]
  show (match r.next with
        | none => [a]
        | some b => a :: walk chain b fuel) = a :: walk chain b fuel
  rw [hn]

/-- Walking the `next` pointers from the head of a suffix visits exactly the
suffix, in order. -/
theorem walk_suffix (chain : List Region) (hnd : (chain.map Region.addr).Nodup)
    (hlink : chainLinked chain) :
    ∀ (suf' : List Region) (x : Region) (pre : List Region),
      chain = pre ++ x :: suf' →
      walk chain x.addr (x :: suf').length = (x :: suf').map Region.addr
  | [], x, pre => by
    intro hc
    have hlook : lookupRegion chain x.addr = some x := by
      rw [hc]
      exact lookupRegion_of_nodup pre [] x (hc ▸ hnd)
    have hnext : x.next = none := by
      have := chainLinked_next pre x [] (hc ▸ hlink)
      simpa using this
    rw [List.length_singleton, walk_step_none 0 hlook hnext]
    simp
  | y :: suf'', x, pre => by
    intro hc
    have hlook : lookupRegion chain x.addr = some x := by
      rw [hc]
      exact lookupRegion_of_nodup pre (y :: suf'') x (hc ▸ hnd)
    have hnext : x.next = some y.addr := by
      have := chainLinked_next pre x (y :: suf'') (hc ▸ hlink)
      simpa using this
    show walk chain x.addr ((y :: suf'').length + 1) =
      x.addr :: (y :: suf'').map Region.addr
    rw [walk_step_some (y :: suf'').length hlook hnext]
    have hc' : chain = (pre ++ [x]) ++ y :: suf'' := by
      rw [hc, List.append_assoc]
      rfl
    rw [walk_suffix chain hnd hlink suf'' y (pre ++ [x]) hc']

/-- In a linked chain with distinct addresses, the region whose `next` is
`nullptr` is exactly the one at the final address. -/
theorem chainLinked_none_iff :
    ∀ (chain : List Region), chainLinked chain → (chain.map Region.addr).Nodup →
      ∀ last, (chain.map Region.addr).getLast? = some last →
      ∀ r ∈ chain, (r.next = none ↔ r.addr = last)
  | [], _, _, last, hlast => by
    simp at hlast
  | [x], hlink, _, last, hlast => by
    intro r hr
    rw [List.mem_singleton] at hr
    subst hr
    simp only [List.map_singleton, List.getLast?_singleton, Option.some.injEq] at hlast
    subst hlast
    exact ⟨fun _ => rfl, fun _ => hlink⟩
  | x :: y :: rest, hlink, hnd, last, hlast => by
    intro r hr
    have hlast' : ((y :: rest).map Region.addr).getLast? = some last := by
      simpa using hlast
    have hmem_last : last ∈ (y :: rest).map Region.addr :=
      List.mem_of_mem_getLast? hlast'
    rw [List.map_cons] at hnd
    rcases List.mem_cons.1 hr with rfl | hr'
    · constructor
      · intro hnone
        rw [hlink.1] at hnone
        exact absurd hnone (by simp)
      · intro haddr
        exact absurd (haddr ▸ hmem_last) (List.nodup_cons.1 hnd).1
    · exact chainLinked_none_iff (y :: rest) hlink.2 (List.nodup_cons.1 hnd).2
        last hlast' r hr'

/-! ## Claims -/

/-- C2: for every region and every request with `size > 0` and power-of-two
alignment within the platform maximum, Region allocation computes
`start = round_up(tail, alignment)`; it fails returning no-space if
`start >= capacity`, otherwise fails if `size > capacity - start`, and
otherwise sets `tail` to `start + size` and returns a pointer to
`data[start]` — i.e. `region_alloc` coincides with the spec's algorithm. -/
theorem claim2_region_alloc_matches_spec (r : Region) (size alignment : Nat)
    (hsize : 0 < size) (hpow : is_power_of_two alignment = true)
    (hle : alignment ≤ MAX_ALIGN) :
    region_alloc r size alignment = region_alloc_spec r size alignment := by
  obtain ⟨k, rfl⟩ := pow_of_is_power_of_two alignment hpow
  simp only [region_alloc_spec]
  rw [region_alloc_eq, ← align_eq_round_up]

theorem claim2_witness :
    (0 < 5 ∧ is_power_of_two 8 = true ∧ 8 ≤ MAX_ALIGN) ∧
    region_alloc ⟨100, none, 3, 50⟩ 5 8 = region_alloc_spec ⟨100, none, 3, 50⟩ 5 8 :=
  ⟨by decide, claim2_region_alloc_matches_spec ⟨100, none, 3, 50⟩ 5 8
    (by decide) (by decide) (by decide)⟩

/-- C9: when `region_alloc` reports no-space, the region is entirely
unchanged — `tail`, `capacity` and the `next` link are exactly as before the
call (failure is atomic; the code writes `tail` only after both checks
pass, and never touches the payload). -/
theorem claim9_region_alloc_failure_atomic (r : Region) (size alignment : Nat)
    (h : (region_alloc r size alignment).1 = none) :
    (region_alloc r size alignment).2 = r := by
  by_cases h1 : align r.tail alignment ≥ r.capacity
  · rw [region_alloc_eq, if_pos h1]
  · by_cases h2 : size > r.capacity - align r.tail alignment
    · rw [region_alloc_eq, if_neg h1, if_pos h2]
    · rw [region_alloc_eq, if_neg h1, if_neg h2] at h
      simp at h

theorem claim9_witness :
    ((region_alloc ⟨0, none, 5, 5⟩ 1 1).1 = none) ∧
    (region_alloc ⟨0, none, 5, 5⟩ 1 1).2 = ⟨0, none, 5, 5⟩ :=
  ⟨by decide, claim9_region_alloc_failure_atomic ⟨0, none, 5, 5⟩ 1 1 (by decide)⟩

/-- C3: in every arena built by `create_arena` followed by any sequence of
`alloc`, `fit` and `set_region_capacity` calls with valid arguments, every
region of the chain satisfies `tail <= capacity` at every point: each region
is created with `tail = 0 <= capacity` and every operation preserves the
inequality. -/
theorem claim3_tail_le_capacity (page_size capacity : Nat) (ops : List Op)
    (hvalid : ∀ op ∈ ops, validOp op) :
    ∀ r ∈ (execOps page_size (initSys page_size capacity) ops).arena.chain,
      r.tail ≤ r.capacity :=
  (wf_execOps page_size (initSys page_size capacity) ops
    (wf_init page_size capacity)).2.2.2.2.2

theorem claim3_witness :
    (∀ op ∈ [Op.alloc 10 1, Op.fit 3 2, Op.set_capacity 128, Op.alloc 4056 8,
      Op.alloc 200 8], validOp op) ∧
    ∀ r ∈ (execOps 4096 (initSys 4096 64) [Op.alloc 10 1, Op.fit 3 2,
      Op.set_capacity 128, Op.alloc 4056 8, Op.alloc 200 8]).arena.chain,
      r.tail ≤ r.capacity :=
  ⟨by decide, claim3_tail_le_capacity 4096 64 _ (by decide)⟩

/-- C6: `create_arena(capacity)` yields an arena whose embedded first region
has capacity at least the requested capacity (and exactly
`page_size - ARENA_HEADER_SIZE` when the request fits in one page minus the
headers), the first region's capacity plus the header it shares the page
with is an exact multiple of the page size, and the block requested from the
OS is at least one page. -/
theorem claim6_create_arena_capacity (page_size capacity : Nat)
    (hpage : is_power_of_two page_size = true) :
    ∀ r0 ∈ (create_arena page_size capacity 0).chain,
      capacity ≤ r0.capacity ∧
      (capacity + ARENA_HEADER_SIZE ≤ page_size →
        r0.capacity = page_size - ARENA_HEADER_SIZE) ∧
      page_size ∣ (r0.capacity + ARENA_HEADER_SIZE) ∧
      page_size ≤ align_to_page page_size (capacity + ARENA_HEADER_SIZE) := by
  obtain ⟨k, rfl⟩ := pow_of_is_power_of_two page_size hpage
  intro r0 hr0
  simp only [create_arena, List.mem_singleton] at hr0
  subst hr0
  have hge : capacity + ARENA_HEADER_SIZE ≤
      align_to_page (2 ^ k) (capacity + ARENA_HEADER_SIZE) := le_align _ _
  have hAH : ARENA_HEADER_SIZE = 40 := rfl
  have hdvd : 2 ^ k ∣ align_to_page (2 ^ k) (capacity + ARENA_HEADER_SIZE) :=
    dvd_align _ k
  refine ⟨?_, ?_, ?_, Nat.le_of_dvd (by omega) hdvd⟩
  · show capacity ≤
      align_to_page (2 ^ k) (capacity + ARENA_HEADER_SIZE) - ARENA_HEADER_SIZE
    omega
  · intro hle
    have heq : align_to_page (2 ^ k) (capacity + ARENA_HEADER_SIZE) = 2 ^ k :=
      align_of_le_two_pow _ k (by omega) hle
    show align_to_page (2 ^ k) (capacity + ARENA_HEADER_SIZE) - ARENA_HEADER_SIZE =
      2 ^ k - ARENA_HEADER_SIZE
    rw [heq]
  · show 2 ^ k ∣
      (align_to_page (2 ^ k) (capacity + ARENA_HEADER_SIZE) - ARENA_HEADER_SIZE +
       ARENA_HEADER_SIZE)
    rw [Nat.sub_add_cancel (by omega)]
    exact hdvd

theorem claim6_witness :
    (is_power_of_two 4096 = true) ∧
    ∀ r0 ∈ (create_arena 4096 64 0).chain,
      64 ≤ r0.capacity ∧
      (64 + ARENA_HEADER_SIZE ≤ 4096 → r0.capacity = 4096 - ARENA_HEADER_SIZE) ∧
      4096 ∣ (r0.capacity + ARENA_HEADER_SIZE) ∧
      4096 ≤ align_to_page 4096 (64 + ARENA_HEADER_SIZE) :=
  ⟨by decide, claim6_create_arena_capacity 4096 64 (by decide)⟩

/-- C10: `create_arena(capacity)` stores the requested capacity itself — not
the page-rounded capacity of the embedded first region — into
`new_region_capacity`, so the first region created on growth is sized from
`max(size, requested capacity)`. -/
theorem claim10_new_region_capacity_is_request (page_size capacity size alignment : Nat) :
    (create_arena page_size capacity 0).new_region_capacity = capacity ∧
    ((new_region_alloc page_size (initSys page_size capacity) size
        alignment).2.arena.chain.map Region.capacity).getLast? =
      some (region_mem_size page_size (max size capacity) - REGION_HEADER_SIZE) := by
  refine ⟨rfl, ?_⟩
  rw [new_region_alloc_snd, List.map_append, List.map_singleton, List.getLast?_concat]
  have hframe := region_alloc_frame (create_region page_size
    (initSys page_size capacity).nextAddr
    (max size (initSys page_size capacity).arena.new_region_capacity)) size alignment
  rw [hframe.2.2]
  rfl

/-- C8: `set_region_capacity` changes only the arena's `new_region_capacity`
field — the chain (every region's `next`, `tail`, `capacity`), the `last`
pointer and the OS state are untouched — and a region created afterwards is
sized from the new value. -/
theorem claim8_set_region_capacity_frame (page_size : Nat) (s : Sys) (c : Nat) :
    (execOp page_size s (Op.set_capacity c)).arena.chain = s.arena.chain ∧
    (execOp page_size s (Op.set_capacity c)).arena.last = s.arena.last ∧
    (execOp page_size s (Op.set_capacity c)).nextAddr = s.nextAddr ∧
    (execOp page_size s (Op.set_capacity c)).arena.new_region_capacity = c ∧
    ∀ size alignment,
      ((new_region_alloc page_size (execOp page_size s (Op.set_capacity c)) size
          alignment).2.arena.chain.map Region.capacity).getLast? =
        some (region_mem_size page_size (max size c) - REGION_HEADER_SIZE) := by
  refine ⟨rfl, rfl, rfl, rfl, ?_⟩
  intro size alignment
  rw [new_region_alloc_snd, List.map_append, List.map_singleton, List.getLast?_concat]
  have hframe := region_alloc_frame (create_region page_size
    (execOp page_size s (Op.set_capacity c)).nextAddr
    (max size (execOp page_size s (Op.set_capacity c)).arena.new_region_capacity))
    size alignment
  rw [hframe.2.2]
  rfl

/-- C5: `_arena_fit` scans the chain in order from the first region and
serves the request from the first region with room (index `i`, all earlier
regions failing) — even when a later region, including `last`, also has
room — updating only that region and creating no new region (the chain
length and the OS watermark are unchanged). -/
theorem claim5_fit_first_fit (page_size : Nat) (s : Sys) (size alignment : Nat)
    (i : Nat) (hi : i < s.arena.chain.length) (p : Nat) (r' : Region)
    (hsucc : region_alloc (s.arena.chain.get ⟨i, hi⟩) size alignment = (some p, r'))
    (hfail : ∀ j (hj : j < i),
      (region_alloc (s.arena.chain.get ⟨j, Nat.lt_trans hj hi⟩) size
        alignment).1 = none) :
    _arena_fit page_size s size alignment =
      (some p,
       { s with arena := { s.arena with chain := s.arena.chain.set i r' } }) ∧
    (_arena_fit page_size s size alignment).2.arena.chain.length =
      s.arena.chain.length ∧
    (_arena_fit page_size s size alignment).2.nextAddr = s.nextAddr := by
  have hscan := fit_scan_first size alignment s.arena.chain i hi p r' hsucc hfail
  have heq : _arena_fit page_size s size alignment =
      (some p,
       { s with arena := { s.arena with chain := s.arena.chain.set i r' } }) := by
    simp only [_arena_fit, hscan]
  refine ⟨heq, ?_, ?_⟩
  · rw [heq]
    show (s.arena.chain.set i r').length = s.arena.chain.length
    exact List.length_set s.arena.chain i r'
  · rw [heq]

theorem claim5_witness :
    (region_alloc ((⟨⟨4096, 64, [⟨16, some 4096, 4051, 4056⟩,
        ⟨4096, none, 4030, 4080⟩]⟩, 8192⟩ : Sys).arena.chain.get
        ⟨1, by decide⟩) 10 1 = (some 8150, ⟨4096, none, 4040, 4080⟩)) ∧
    (∀ j (hj : j < 1),
      (region_alloc ((⟨⟨4096, 64, [⟨16, some 4096, 4051, 4056⟩,
        ⟨4096, none, 4030, 4080⟩]⟩, 8192⟩ : Sys).arena.chain.get
        ⟨j, Nat.lt_trans hj (by decide)⟩) 10 1).1 = none) ∧
    (_arena_fit 4096 ⟨⟨4096, 64, [⟨16, some 4096, 4051, 4056⟩,
        ⟨4096, none, 4030, 4080⟩]⟩, 8192⟩ 10 1 =
      (some 8150,
       { (⟨⟨4096, 64, [⟨16, some 4096, 4051, 4056⟩, ⟨4096, none, 4030, 4080⟩]⟩,
          8192⟩ : Sys) with arena := { (⟨⟨4096, 64, [⟨16, some 4096, 4051, 4056⟩,
          ⟨4096, none, 4030, 4080⟩]⟩, 8192⟩ : Sys).arena with
            chain := [⟨16, some 4096, 4051, 4056⟩,
              ⟨4096, none, 4030, 4080⟩].set 1 ⟨4096, none, 4040, 4080⟩ } }) ∧
     (_arena_fit 4096 ⟨⟨4096, 64, [⟨16, some 4096, 4051, 4056⟩,
        ⟨4096, none, 4030, 4080⟩]⟩, 8192⟩ 10 1).2.arena.chain.length = 2 ∧
     (_arena_fit 4096 ⟨⟨4096, 64, [⟨16, some 4096, 4051, 4056⟩,
        ⟨4096, none, 4030, 4080⟩]⟩, 8192⟩ 10 1).2.nextAddr = 8192) :=
  ⟨by decide, by decide,
   claim5_fit_first_fit 4096 ⟨⟨4096, 64, [⟨16, some 4096, 4051, 4056⟩,
     ⟨4096, none, 4030, 4080⟩]⟩, 8192⟩ 10 1 1 (by decide) 8150
     ⟨4096, none, 4040, 4080⟩ (by decide) (by decide)⟩

/-- C4: for every arena state whose `last` pointer resolves to a region, and
every request with nonzero size, `_arena_alloc` never returns `nullptr`; and
when the last region cannot satisfy the request, a new region whose capacity
is at least `max(size, new_region_capacity)` — rounded so that capacity plus
the region header size is a page multiple — is linked after `last`, becomes
the new `last`, and the request is served from its payload start. -/
theorem claim4_alloc_never_fails (page_size : Nat) (s : Sys)
    (size alignment : Nat) (lastR : Region)
    (hpage : is_power_of_two page_size = true) (hsize : 0 < size)
    (hlook : lookupRegion s.arena.chain s.arena.last = some lastR) :
    (_arena_alloc page_size s size alignment).1.isSome = true ∧
    ((region_alloc lastR size alignment).1 = none →
      ∃ newR : Region,
        (_arena_alloc page_size s size alignment).2.arena.chain =
          setNext s.arena.chain s.arena.last s.nextAddr ++ [newR] ∧
        newR.addr = s.nextAddr ∧
        max size s.arena.new_region_capacity ≤ newR.capacity ∧
        page_size ∣ (newR.capacity + REGION_HEADER_SIZE) ∧
        (_arena_alloc page_size s size alignment).2.arena.last = s.nextAddr ∧
        (_arena_alloc page_size s size alignment).1 =
          some (s.nextAddr + REGION_HEADER_SIZE)) := by
  rcases hra : region_alloc lastR size alignment with ⟨o, r2⟩
  cases o with
  | some ptr =>
    have heq : _arena_alloc page_size s size alignment =
        (some ptr,
         { s with arena := { s.arena with
            chain := updateRegion s.arena.chain s.arena.last r2 } }) := by
      simp only [_arena_alloc, hlook, hra]
    rw [heq]
    refine ⟨rfl, ?_⟩
    intro hnone
    simp at hnone
  | none =>
    have heq : _arena_alloc page_size s size alignment =
        new_region_alloc page_size s size alignment := by
      simp only [_arena_alloc, hlook, hra]
    have hcapr : (create_region page_size s.nextAddr
        (max size s.arena.new_region_capacity)).capacity =
        region_mem_size page_size (max size s.arena.new_region_capacity) -
          REGION_HEADER_SIZE := rfl
    have hmm := region_mem_size_ge page_size (max size s.arena.new_region_capacity)
    have hRH : REGION_HEADER_SIZE = 24 := rfl
    have hcap : max size s.arena.new_region_capacity ≤
        (create_region page_size s.nextAddr
          (max size s.arena.new_region_capacity)).capacity := by
      rw [hcapr]
      omega
    have hfresh := region_alloc_fresh (create_region page_size s.nextAddr
      (max size s.arena.new_region_capacity)) size alignment rfl hsize
      (Nat.le_trans (Nat.le_max_left _ _) hcap)
    rw [heq]
    constructor
    · rw [new_region_alloc_fst, hfresh]
      rfl
    · intro _
      refine ⟨{ create_region page_size s.nextAddr
          (max size s.arena.new_region_capacity) with tail := size }, ?_, rfl, ?_, ?_,
          rfl, ?_⟩
      · rw [new_region_alloc_snd, hfresh]
      · show max size s.arena.new_region_capacity ≤
          (create_region page_size s.nextAddr
            (max size s.arena.new_region_capacity)).capacity
        exact hcap
      · show page_size ∣ ((create_region page_size s.nextAddr
          (max size s.arena.new_region_capacity)).capacity + REGION_HEADER_SIZE)
        rw [hcapr, Nat.sub_add_cancel (by omega)]
        obtain ⟨k, rfl⟩ := pow_of_is_power_of_two page_size hpage
        exact dvd_align _ k
      · rw [new_region_alloc_fst, hfresh]
        rfl

theorem claim4_witness :
    (is_power_of_two 4096 = true ∧ 0 < 10 ∧
     lookupRegion [⟨16, none, 4056, 4056⟩] 16 = some ⟨16, none, 4056, 4056⟩) ∧
    ((_arena_alloc 4096 ⟨⟨16, 64, [⟨16, none, 4056, 4056⟩]⟩, 4096⟩
        10 1).1.isSome = true ∧
     ((region_alloc (⟨16, none, 4056, 4056⟩ : Region) 10 1).1 = none →
       ∃ newR : Region,
         (_arena_alloc 4096 ⟨⟨16, 64, [⟨16, none, 4056, 4056⟩]⟩, 4096⟩
             10 1).2.arena.chain =
           setNext [⟨16, none, 4056, 4056⟩] 16 4096 ++ [newR] ∧
         newR.addr = 4096 ∧
         max 10 64 ≤ newR.capacity ∧
         4096 ∣ (newR.capacity + REGION_HEADER_SIZE) ∧
         (_arena_alloc 4096 ⟨⟨16, 64, [⟨16, none, 4056, 4056⟩]⟩, 4096⟩
             10 1).2.arena.last = 4096 ∧
         (_arena_alloc 4096 ⟨⟨16, 64, [⟨16, none, 4056, 4056⟩]⟩, 4096⟩
             10 1).1 = some (4096 + REGION_HEADER_SIZE))) :=
  ⟨⟨by decide, by decide, by decide⟩,
   claim4_alloc_never_fails 4096 ⟨⟨16, 64, [⟨16, none, 4056, 4056⟩]⟩, 4096⟩ 10 1
     ⟨16, none, 4056, 4056⟩ (by decide) (by decide) (by decide)⟩

/-- C7: for every arena reachable from `create_arena` by valid calls, the
chain of `next` links starting at the embedded first region is acyclic and
finite — walking the links visits each region exactly once, in chain order,
within `length` steps — and the `last` pointer holds the address of the final
element, the unique region whose `next` is `nullptr`. -/
theorem claim7_chain_acyclic_last_final (page_size capacity : Nat) (ops : List Op)
    (hvalid : ∀ op ∈ ops, validOp op) :
    (execOps page_size (initSys page_size capacity) ops).arena.chain ≠ [] ∧
    ∀ (first : Region) (rest : List Region),
      (execOps page_size (initSys page_size capacity) ops).arena.chain =
        first :: rest →
      (walk (first :: rest) first.addr (first :: rest).length =
         (first :: rest).map Region.addr ∧
       ((first :: rest).map Region.addr).Nodup ∧
       ((first :: rest).map Region.addr).getLast? =
         some (execOps page_size (initSys page_size capacity) ops).arena.last ∧
       ∀ r ∈ first :: rest,
         (r.next = none ↔
          r.addr = (execOps page_size (initSys page_size capacity)
            ops).arena.last)) := by
  obtain ⟨hne, hlink, hsorted, hbound, hlast, htails⟩ :=
    wf_execOps page_size (initSys page_size capacity) ops
      (wf_init page_size capacity)
  refine ⟨hne, ?_⟩
  intro first rest hc
  rw [hc] at hlink hsorted hlast
  have hnd := nodup_of_chain_lt hsorted
  exact ⟨walk_suffix (first :: rest) hnd hlink rest first [] rfl, hnd, hlast,
    chainLinked_none_iff (first :: rest) hlink hnd _ hlast⟩

theorem claim7_witness :
    (∀ op ∈ [Op.alloc 4056 1, Op.alloc 10 1], validOp op) ∧
    ((execOps 4096 (initSys 4096 64) [Op.alloc 4056 1,
        Op.alloc 10 1]).arena.chain ≠ [] ∧
     ∀ (first : Region) (rest : List Region),
       (execOps 4096 (initSys 4096 64) [Op.alloc 4056 1,
         Op.alloc 10 1]).arena.chain = first :: rest →
       (walk (first :: rest) first.addr (first :: rest).length =
          (first :: rest).map Region.addr ∧
        ((first :: rest).map Region.addr).Nodup ∧
        ((first :: rest).map Region.addr).getLast? =
          some (execOps 4096 (initSys 4096 64) [Op.alloc 4056 1,
            Op.alloc 10 1]).arena.last ∧
        ∀ r ∈ first :: rest,
          (r.next = none ↔
           r.addr = (execOps 4096 (initSys 4096 64) [Op.alloc 4056 1,
             Op.alloc 10 1]).arena.last))) :=
  ⟨by decide, claim7_chain_acyclic_last_final 4096 64 _ (by decide)⟩

/-- C1 (failing input): the claim promises every returned pointer is a
multiple of the requested alignment for any power-of-two alignment up to the
platform maximum (16).  The code violates this: with the arena block at a
page-aligned base (here 0), the very first allocation with alignment 16 —
a valid request by the code's own assertion — returns the address of
`data[0]` of the embedded first region, which sits at offset
`ARENA_HEADER_SIZE = 40` from the base; `40 % 16 = 8`, so the pointer is not
16-byte aligned.  (`region_alloc` aligns the offset within `data`, but
`data` itself is only 8-byte aligned because the 24-byte region header is
not a multiple of 16.) -/
theorem claim1_alignment16_failing_input :
    is_power_of_two 16 = true ∧ 16 ≤ MAX_ALIGN ∧ 0 < 1 ∧
    (_arena_alloc 4096 (initSys 4096 64) 1 16).1 = some 40 ∧
    40 % 16 = 8 := by decide
